import Mathlib

/-!
Verification development for the package immutable of trie.go.

Shallow embedding of src/immutable/trie.go and src/immutable/proof.go.

Conventions of the embedding:
* a Go byte is a value of Fin 256, a Go byte slice is a List of bytes; a nil slice and an
  empty slice are both the empty list (the code only observes slices through len, range and
  indexing);
* a Go interface value or pointer that may be nil is an Option (none is nil);
* a Go map is an association list; the map handed to the commitment model is kept sorted by
  key, so that two equal Go maps are equal values, and the pending children of a buffered
  node are listed in the order in which range visits them;
* a Go panic is the error case of Except, carrying the panic message;
* the KVWriter is the list of the Set calls made on it, oldest first;
* the commitment model (an interface of the package common) is a record of functions, and
  the commitment types are type parameters VC (vector commitments) and TC (terminal
  commitments).
-/

namespace Immutable

/-- One byte; also one symbol of an unpacked key. -/
abbrev Byte := Fin 256

/-- The type common.PathArity (a byte-sized code of the alphabet size). -/
abbrev PathArity := Byte

/-- The message of a Go panic. -/
abbrev Panic := String

/-- The writes made through a common.KVWriter: the (key, value) arguments of its Set calls. -/
abbrev KVWriter := List (List Byte × List Byte)

/-! ## Go maps with byte keys -/

/-- The assignment m[k] = v on a map kept sorted by key. -/
def mapSet {β : Type} : List (Byte × β) → Byte → β → List (Byte × β)
  | [], k, v => [(k, v)]
  | (k0, v0) :: rest, k, v =>
    if k < k0 then (k, v) :: (k0, v0) :: rest
    else if k = k0 then (k, v) :: rest
    else (k0, v0) :: mapSet rest k v

/-- The lookup m[k] with its presence flag: none when k is not a key of m. -/
def mapGet {β : Type} : List (Byte × β) → Byte → Option β
  | [], _ => none
  | (k0, v0) :: rest, k => if k = k0 then some v0 else mapGet rest k

/-! ## Data model -/

/-- Modelled from the spec: the record NodeData is declared outside src. Section 3 of the spec
gives its content: the path fragment, the terminal commitment (nil if the node holds no
value), the sparse mapping from symbol to child vector commitment, and the node's own vector
commitment. -/
structure NodeData (VC TC : Type) where
  PathFragment : List Byte
  ChildCommitments : List (Byte × VC)
  Terminal : Option TC
  Commitment : Option VC

/-- Modelled from the spec: the type bufferedNode is declared outside src. The fields are
the ones that src/immutable/trie.go reads and writes: nodeData, terminal, pathFragment and
uncommittedChildren, the pending child edits, where none is the delete marker (a nil
pointer in the Go map). -/
inductive bufferedNode (VC TC : Type) where
  | mk (nodeData : NodeData VC TC) (terminal : Option TC) (pathFragment : List Byte)
      (uncommittedChildren : List (Byte × Option (bufferedNode VC TC)))

/-- Field nodeData of a buffered node. -/
def bufferedNode.nodeData {VC TC : Type} : bufferedNode VC TC → NodeData VC TC
  | .mk nd _ _ _ => nd

/-- Field terminal of a buffered node. -/
def bufferedNode.terminal {VC TC : Type} : bufferedNode VC TC → Option TC
  | .mk _ t _ _ => t

/-- Field pathFragment of a buffered node. -/
def bufferedNode.pathFragment {VC TC : Type} : bufferedNode VC TC → List Byte
  | .mk _ _ f _ => f

/-- Field uncommittedChildren of a buffered node. -/
def bufferedNode.uncommittedChildren {VC TC : Type} :
    bufferedNode VC TC → List (Byte × Option (bufferedNode VC TC))
  | .mk _ _ _ c => c

/-- The part of the interface common.CommitmentModel that the package calls.
UpdateNodeCommitment mutates the node data it is given; here it returns the mutated
record. -/
structure CommitmentModel (VC TC : Type) where
  PathArity : PathArity
  UpdateNodeCommitment :
    NodeData VC TC → List (Byte × Option VC) → Option TC → List Byte → Bool → NodeData VC TC

/-- Modelled from the spec: the type NodeStore is declared outside src. It holds the
commitment model m, and FetchNodeData is the contract of section 4.1,
fetch(commitment) -> (NodeData, found), where none is found = false. -/
structure NodeStore (VC TC : Type) where
  m : CommitmentModel VC TC
  FetchNodeData : Option VC → Option (NodeData VC TC)

/-- TrieReader: direct read-only access to the trie. -/
structure TrieReader (VC TC : Type) where
  nodeStore : NodeStore VC TC
  persistentRoot : Option VC

/-- Trie: the reader together with the root of the buffered mutation tree. -/
structure Trie (VC TC : Type) extends TrieReader VC TC where
  mutatedRoot : bufferedNode VC TC

/-- The errors returned (not panicked) by the package. -/
inductive TrieError (VC : Type) where
  | rootDoesNotExist (root : Option VC)

/-- common.IsNil on a commitment. -/
def IsNil {α : Type} (c : Option α) : Bool := c.isNone

/-- Modelled from the spec: newBufferedNode is defined outside src. A buffered node wraps a
freshly loaded node data (or an empty one when given nil) and starts with no pending child
edit. The second argument of the Go function, the trie path of the node, is not read by any
code under src and is not kept. -/
def newBufferedNode {VC TC : Type} (n : Option (NodeData VC TC)) (_triePath : List Byte) :
    bufferedNode VC TC :=
  match n with
  | none => .mk ⟨[], [], none, none⟩ none [] []
  | some nd => .mk nd nd.Terminal nd.PathFragment []

/-! ## trie.go -/

/-- NewTrie (trie.go 23-36). -/
def NewTrie {VC TC : Type} (nodeStore : NodeStore VC TC) (root : Option VC) :
    Except (TrieError VC) (Trie VC TC) :=
  match nodeStore.FetchNodeData root with
  | none => .error (.rootDoesNotExist root)
  | some rootNodeData =>
    .ok { persistentRoot := root
          nodeStore := nodeStore
          mutatedRoot := newBufferedNode (some rootNodeData) [] }

/-- TrieReader.RootCommitment (trie.go 38-40). -/
def TrieReader.RootCommitment {VC TC : Type} (tr : TrieReader VC TC) : Option VC :=
  tr.persistentRoot

/-- TrieReader.Model (trie.go 42-44). -/
def TrieReader.Model {VC TC : Type} (tr : TrieReader VC TC) : CommitmentModel VC TC :=
  tr.nodeStore.m

/-- TrieReader.PathArity (trie.go 46-48). -/
def TrieReader.PathArity {VC TC : Type} (tr : TrieReader VC TC) : PathArity :=
  tr.nodeStore.m.PathArity

/-- The arguments of one invocation of the model's UpdateNodeCommitment. -/
structure UpdateCall (VC TC : Type) where
  mutate : NodeData VC TC
  childUpdates : List (Byte × Option VC)
  terminal : Option TC
  pathFragment : List Byte
  calcDelta : Bool

/-- What a run of commitNode leaves behind: the writer, the node as mutated in place, and the
invocations of UpdateNodeCommitment it made, oldest first. -/
structure CommitOut (VC TC : Type) where
  w : KVWriter
  node : bufferedNode VC TC
  calls : List (UpdateCall VC TC)

/-- The state of the loop of commitNode over the pending children: the writer, the map
childUpdates built so far, and the invocations of UpdateNodeCommitment made so far. -/
structure LoopState (VC TC : Type) where
  w : KVWriter
  childUpdates : List (Byte × Option VC)
  calls : List (UpdateCall VC TC)

mutual
/-- commitNode (trie.go 65-77). -/
def commitNode {VC TC : Type} (w : KVWriter) (m : CommitmentModel VC TC) :
    bufferedNode VC TC → CommitOut VC TC
  | .mk nodeData terminal pathFragment uncommittedChildren =>
    let s := commitLoop m ⟨w, [], []⟩ uncommittedChildren
    let calcDelta := !IsNil nodeData.Commitment
    let nodeData1 := m.UpdateNodeCommitment nodeData s.childUpdates terminal pathFragment calcDelta
    { w := s.w
      node := .mk nodeData1 terminal pathFragment []
      calls := s.calls ++ [⟨nodeData, s.childUpdates, terminal, pathFragment, calcDelta⟩] }
/-- The loop of commitNode (trie.go 67-74) over the pending children still to visit. -/
def commitLoop {VC TC : Type} (m : CommitmentModel VC TC) (s : LoopState VC TC) :
    List (Byte × Option (bufferedNode VC TC)) → LoopState VC TC
  | [] => s
  | (idx, none) :: rest =>
    commitLoop m { s with childUpdates := mapSet s.childUpdates idx none } rest
  | (idx, some child) :: rest =>
    let out := commitNode s.w m child
    commitLoop m
      { w := out.w
        childUpdates := mapSet s.childUpdates idx out.node.nodeData.Commitment
        calls := s.calls ++ out.calls }
      rest
end

/-- What Trie.Commit leaves behind: the trie, the writer, the returned commitment, and the
invocations of UpdateNodeCommitment made. -/
structure CommitResult (VC TC : Type) where
  trie : Trie VC TC
  w : KVWriter
  ret : Option VC
  calls : List (UpdateCall VC TC)

/-- Trie.Commit (trie.go 52-55). -/
def Trie.Commit {VC TC : Type} (tr : Trie VC TC) (w : KVWriter) : CommitResult VC TC :=
  let out := commitNode w tr.Model tr.mutatedRoot
  let tr1 : Trie VC TC := { tr with mutatedRoot := out.node }
  { trie := tr1, w := out.w, ret := tr1.mutatedRoot.nodeData.Commitment, calls := out.calls }

/-- The functions that Trie.Update calls and that are defined outside src: common.UnpackBytes
and the methods update and delete of Trie, which mutate the trie. -/
structure Internals (VC TC : Type) where
  UnpackBytes : List Byte → PathArity → List Byte
  update : Trie VC TC → List Byte → List Byte → Trie VC TC
  delete : Trie VC TC → List Byte → Trie VC TC

/-- Trie.Update (trie.go 80-87). -/
def Trie.Update {VC TC : Type} (d : Internals VC TC) (tr : Trie VC TC)
    (triePath value : List Byte) : Trie VC TC :=
  let unpackedTriePath := d.UnpackBytes triePath tr.PathArity
  if value.length = 0 then
    d.delete tr unpackedTriePath
  else
    d.update tr unpackedTriePath value

/-- Trie.Delete (trie.go 90-92). -/
def Trie.Delete {VC TC : Type} (d : Internals VC TC) (tr : Trie VC TC) (key : List Byte) :
    Trie VC TC :=
  tr.Update d key []

/-- A Go value of type interface{}, as far as UpdateStr and DeleteStr tell values apart: the
nil interface, a byte slice, a string (given by its bytes), or a value of any other type. -/
inductive Any where
  | nil
  | bytes (b : List Byte)
  | string (s : List Byte)
  | other

/-- Trie.UpdateStr (trie.go 102-125). -/
def Trie.UpdateStr {VC TC : Type} (d : Internals VC TC) (tr : Trie VC TC) (key value : Any) :
    Except Panic (Trie VC TC) :=
  let k : Except Panic (List Byte) :=
    match key with
    | .nil => .ok []
    | .bytes kt => .ok kt
    | .string kt => .ok kt
    | .other => .error "[]byte or string expected"
  match k with
  | .error e => .error e
  | .ok k =>
    let v : Except Panic (List Byte) :=
      match value with
      | .nil => .ok []
      | .bytes vt => .ok vt
      | .string vt => .ok vt
      | .other => .error "[]byte or string expected"
    match v with
    | .error e => .error e
    | .ok v => .ok (tr.Update d k v)

/-- Trie.DeleteStr (trie.go 128-141). -/
def Trie.DeleteStr {VC TC : Type} (d : Internals VC TC) (tr : Trie VC TC) (key : Any) :
    Except Panic (Trie VC TC) :=
  let k : Except Panic (List Byte) :=
    match key with
    | .nil => .ok []
    | .bytes kt => .ok kt
    | .string kt => .ok kt
    | .other => .error "[]byte or string expected"
  match k with
  | .error e => .error e
  | .ok k => .ok (tr.Delete d k)

/-- The byte sequence that corresponds to a key or value given as nil, a byte slice or a
string: nil is the empty sequence, a byte slice is itself, a string is its bytes. A value of
another type has none. -/
def Any.correspondingBytes : Any → Option (List Byte)
  | .nil => some []
  | .bytes b => some b
  | .string s => some s
  | .other => none

/-- The decoding that Trie.VectorCommitmentFromBytes calls and that is defined outside src.
Read m data stands for m.NewVectorCommitment() followed by ret.Read(rdr) on a fresh reader
rdr over data: it gives the error of the read, or the commitment ret as the read left it
together with rdr.Len(), the number of bytes of data left unread. ErrNotAllBytesConsumed is
the error value of that name in the package common. -/
structure VCommitmentReader (VC TC Err : Type) where
  Read : CommitmentModel VC TC → List Byte → Except Err (VC × Nat)
  ErrNotAllBytesConsumed : Err

/-- Trie.VectorCommitmentFromBytes (trie.go 150-160). -/
def Trie.VectorCommitmentFromBytes {VC TC Err : Type} (r : VCommitmentReader VC TC Err)
    (tr : Trie VC TC) (data : List Byte) : Except Err VC :=
  match r.Read tr.nodeStore.m data with
  | .error err => .error err
  | .ok (ret, rdrLen) =>
    if rdrLen ≠ 0 then
      .error r.ErrNotAllBytesConsumed
    else
      .ok ret

/-- The pairs that a common.KVIterator yields, in its order. -/
abbrev KVIterator := List (List Byte × List Byte)

/-- Trie.Reconcile (trie.go 165-186): the body is the single statement panic("implement me");
the loop that follows it in the source is commented out. -/
def Trie.Reconcile {VC TC : Type} (_tr : Trie VC TC) (_store : KVIterator) :
    Except Panic (List (List Byte)) :=
  .error "implement me"

/-- Modelled from the spec: the method Iterate of common.KVIterator is declared outside src.
Section 6 of the spec gives its contract, iterate(callback(key, value) -> continue?): the
callback is called on the pairs in the order of the iterator, until it returns false or the
pairs are exhausted. The state that the callback mutates is passed along. -/
def KVIterator.Iterate {σ : Type} (f : σ → List Byte → List Byte → σ × Bool) :
    KVIterator → σ → σ
  | [], s => s
  | (k, v) :: rest, s =>
    let r := f s k v
    if r.2 then KVIterator.Iterate f rest r.1 else r.1

/-- Trie.UpdateAll (trie.go 190-195). -/
def Trie.UpdateAll {VC TC : Type} (d : Internals VC TC) (tr : Trie VC TC) (store : KVIterator) :
    Trie VC TC :=
  KVIterator.Iterate (fun tr k v => (tr.Update d k v, true)) store tr

/-! ## proof.go -/

/-- ProofEndingCode (proof.go 22): a byte. -/
structure ProofEndingCode where
  code : Byte
  deriving DecidableEq

/-- The constant EndingTerminal (proof.go 25): iota is 0. -/
def EndingTerminal : ProofEndingCode := ⟨0⟩

/-- The constant EndingSplit (proof.go 26). -/
def EndingSplit : ProofEndingCode := ⟨1⟩

/-- The constant EndingExtend (proof.go 27). -/
def EndingExtend : ProofEndingCode := ⟨2⟩

/-- The constant EndingRootNotFound (proof.go 28). -/
def EndingRootNotFound : ProofEndingCode := ⟨3⟩

/-- A Go string value built by the package. -/
abbrev Text := String

/-- ProofEndingCode.String (proof.go 31-42). -/
def ProofEndingCode.String (e : ProofEndingCode) : Except Panic Text :=
  if e = EndingTerminal then .ok "EndingTerminal"
  else if e = EndingSplit then .ok "EndingSplit"
  else if e = EndingExtend then .ok "EndingExtend"
  else .error "wrong ending code"

/-- ProofGenericElement (proof.go 17-20). -/
structure ProofGenericElement (VC TC : Type) where
  NodeData : NodeData VC TC
  ChildIndex : Byte

/-- ProofGeneric (proof.go 11-15). -/
structure ProofGeneric (VC TC : Type) where
  Key : List Byte
  Path : List (ProofGenericElement VC TC)
  Ending : ProofEndingCode

/-- One part of a text built with fmt.Sprintf, in place of its characters: a piece of the
format string, the bytes of a string operand of the verb s, the text returned by the String
method of an operand of the verb s, the marker that fmt prints for such an operand when its
String method panics, a number printed by the verb d, or the hexadecimal text of a byte
slice (hex.EncodeToString). -/
inductive Piece where
  | text (s : Text)
  | bytes (b : List Byte)
  | name (s : Text)
  | recoveredPanic (msg : Panic)
  | int (n : Nat)
  | hex (b : List Byte)
  deriving DecidableEq

/-- The verb s of fmt on an operand that has a String method, given the outcome of the call
of that method. The print routines of fmt call the method under a deferred recover: when the
method panics, the panic is caught and its message is printed inside the marker
%!s(PANIC=String method: ...), and the print routine goes on. -/
def fmtStringer (r : Except Panic Text) : Piece :=
  match r with
  | .ok s => .name s
  | .error msg => .recoveredPanic msg

/-- The loop of ProofGeneric.String (proof.go 46-49) from the index i on. -/
def pathText {VC TC : Type} : Nat → List (ProofGenericElement VC TC) → List Piece → List Piece
  | _, [], ret => ret
  | i, e :: rest, ret =>
    pathText (i + 1) rest
      (ret ++ [.text "   #", .int i, .text ": pathFrag '", .hex e.NodeData.PathFragment,
        .text "', childIdx: ", .int e.ChildIndex.val, .text "\n"])

/-- ProofGeneric.String (proof.go 44-51). -/
def ProofGeneric.String {VC TC : Type} (p : ProofGeneric VC TC) : Except Panic (List Piece) :=
  let ret : List Piece :=
    [.text "GENERIC PROOF. Key: '", .bytes p.Key, .text "', Ending: '",
      fmtStringer p.Ending.String, .text "'\n"]
  .ok (pathText 0 p.Path ret)

/-- The loop of commonPrefix (proof.go 110-115). The first two arguments are b1[i:] and
b2[i:], the parts of the slices not yet compared; the result is the final i and ret. -/
def commonPrefixLoop : List Byte → List Byte → Nat → List Byte → Nat × List Byte
  | x :: xs, y :: ys, i, ret =>
    if x ≠ y then (i, ret) else commonPrefixLoop xs ys (i + 1) (ret ++ [x])
  | _, _, i, ret => (i, ret)

/-- commonPrefix (proof.go 107-125). Both conditional assignments of the source assign to r1,
and r2 is returned as declared (nil). -/
def commonPrefix (b1 b2 : List Byte) : List Byte × List Byte × List Byte :=
  let (i, ret) := commonPrefixLoop b1 b2 0 []
  let r1 : List Byte := []
  let r2 : List Byte := []
  let r1 := if i < b1.length then b1.drop i else r1
  let r1 := if i < b2.length then b2.drop i else r1
  (ret, r1, r2)

/-- fetchPath (proof.go 159-195): the body is the single statement panic("implement me");
the walk that follows it in the source is commented out. -/
def fetchPath {VC TC : Type} (_nodeStore : NodeStore VC TC) (_root : Option VC)
    (_triePath : List Byte) :
    Except Panic (List (ProofGenericElement VC TC) × ProofEndingCode) :=
  .error "implement me"

/-- GetProofGeneric (proof.go 56-63). -/
def GetProofGeneric {VC TC : Type} (nodeStore : NodeStore VC TC) (root : Option VC)
    (triePath : List Byte) : Except Panic (ProofGeneric VC TC) :=
  match fetchPath nodeStore root triePath with
  | .error e => .error e
  | .ok (p, ending) => .ok { Key := triePath, Path := p, Ending := ending }

/-! ## Reading a run of commitNode -/

/-- The commitment that the visit of one pending child puts into childUpdates: nil for a
delete marker, and otherwise the commitment the child holds after its own commit. -/
def childCommitment {VC TC : Type} (w : KVWriter) (m : CommitmentModel VC TC) :
    Option (bufferedNode VC TC) → Option VC
  | none => none
  | some child => (commitNode w m child).node.nodeData.Commitment

/-- The invocations of UpdateNodeCommitment made by the commits of the pending children that
are not delete-marked, in visiting order. -/
def childrenCalls {VC TC : Type} (w : KVWriter) (m : CommitmentModel VC TC) :
    List (Byte × Option (bufferedNode VC TC)) → List (UpdateCall VC TC)
  | [] => []
  | (_, none) :: rest => childrenCalls w m rest
  | (_, some child) :: rest => (commitNode w m child).calls ++ childrenCalls w m rest

/-- The invocations of UpdateNodeCommitment made by the visit of one pending entry: none for
a delete marker, those of the commit of the child otherwise. -/
def entryCalls {VC TC : Type} (w : KVWriter) (m : CommitmentModel VC TC)
    (p : Byte × Option (bufferedNode VC TC)) : List (UpdateCall VC TC) :=
  match p.2 with
  | none => []
  | some child => (commitNode w m child).calls

/-- The invocation of UpdateNodeCommitment that commitNode makes on the node it is called
on, after the loop over the pending children of that node. -/
def ownCall {VC TC : Type} (w : KVWriter) (m : CommitmentModel VC TC)
    (node : bufferedNode VC TC) : UpdateCall VC TC :=
  { mutate := node.nodeData
    childUpdates := (commitLoop m ⟨w, [], []⟩ node.uncommittedChildren).childUpdates
    terminal := node.terminal
    pathFragment := node.pathFragment
    calcDelta := !IsNil node.nodeData.Commitment }

mutual
/-- The nodes reachable from a node through pending children that are not delete-marked,
the node itself last and every pending subtree before it, in visiting order. -/
def reachableNodes {VC TC : Type} : bufferedNode VC TC → List (bufferedNode VC TC)
  | .mk nodeData terminal pathFragment uncommittedChildren =>
    reachableThrough uncommittedChildren ++
      [.mk nodeData terminal pathFragment uncommittedChildren]
/-- The nodes reachable through a list of pending entries. -/
def reachableThrough {VC TC : Type} :
    List (Byte × Option (bufferedNode VC TC)) → List (bufferedNode VC TC)
  | [] => []
  | (_, none) :: rest => reachableThrough rest
  | (_, some child) :: rest => reachableNodes child ++ reachableThrough rest
end

mutual
/-- The height of a buffered tree: the number of nodes on its longest chain of pending
children. -/
def bufferedNode.height {VC TC : Type} : bufferedNode VC TC → Nat
  | .mk _ _ _ uncommittedChildren => pendingHeight uncommittedChildren + 1
/-- The greatest height of the pending children in a list of entries, 0 when there is
none. -/
def pendingHeight {VC TC : Type} : List (Byte × Option (bufferedNode VC TC)) → Nat
  | [] => 0
  | (_, none) :: rest => pendingHeight rest
  | (_, some child) :: rest => max child.height (pendingHeight rest)
end

/-- The loop of commitNode (trie.go 67-74) where the recursive call is the given function,
which may fail to return. -/
def commitLoopWith {VC TC : Type}
    (commit : KVWriter → bufferedNode VC TC → Option (CommitOut VC TC))
    (s : LoopState VC TC) : List (Byte × Option (bufferedNode VC TC)) → Option (LoopState VC TC)
  | [] => some s
  | (idx, none) :: rest =>
    commitLoopWith commit { s with childUpdates := mapSet s.childUpdates idx none } rest
  | (idx, some child) :: rest =>
    match commit s.w child with
    | none => none
    | some out =>
      commitLoopWith commit
        { w := out.w
          childUpdates := mapSet s.childUpdates idx out.node.nodeData.Commitment
          calls := s.calls ++ out.calls }
        rest

/-- commitNode (trie.go 65-77) run under a bound on the depth of its recursion: each call
uses one unit of depth, and none is the outcome of a run that would need to go deeper than
the bound. -/
def commitNodeDepth {VC TC : Type} :
    Nat → KVWriter → CommitmentModel VC TC → bufferedNode VC TC → Option (CommitOut VC TC)
  | 0, _, _, _ => none
  | depth + 1, w, m, .mk nodeData terminal pathFragment uncommittedChildren =>
    match commitLoopWith (fun w1 child => commitNodeDepth depth w1 m child) ⟨w, [], []⟩
        uncommittedChildren with
    | none => none
    | some s =>
      let calcDelta := !IsNil nodeData.Commitment
      let nodeData1 :=
        m.UpdateNodeCommitment nodeData s.childUpdates terminal pathFragment calcDelta
      some
        { w := s.w
          node := .mk nodeData1 terminal pathFragment []
          calls := s.calls ++ [⟨nodeData, s.childUpdates, terminal, pathFragment, calcDelta⟩] }

/-- Two buffered trees hold the same pending edits and differ at most in the order in which
range visits the pending children of their nodes: the pending children of a node are
permuted (they are the entries of a Go map, so their symbols are pairwise distinct), or a
pending child is replaced by a tree related in the same way, any number of times. -/
inductive SameEdits {VC TC : Type} : bufferedNode VC TC → bufferedNode VC TC → Prop
  | refl (n : bufferedNode VC TC) : SameEdits n n
  | reorder (nd : NodeData VC TC) (t : Option TC) (f : List Byte)
      (l1 l2 : List (Byte × Option (bufferedNode VC TC))) :
      (l1.map Prod.fst).Nodup → l1.Perm l2 → SameEdits (.mk nd t f l1) (.mk nd t f l2)
  | child (nd : NodeData VC TC) (t : Option TC) (f : List Byte)
      (pre post : List (Byte × Option (bufferedNode VC TC))) (idx : Byte)
      (c1 c2 : bufferedNode VC TC) :
      SameEdits c1 c2 →
      SameEdits (.mk nd t f (pre ++ (idx, some c1) :: post))
        (.mk nd t f (pre ++ (idx, some c2) :: post))
  | trans (a b c : bufferedNode VC TC) : SameEdits a b → SameEdits b c → SameEdits a c

/-! ## A concrete commitment model and store, used to evaluate the code on inputs -/

/-- The deletion delete(m, k) on a map. -/
def mapErase {β : Type} : List (Byte × β) → Byte → List (Byte × β)
  | [], _ => []
  | (k0, v0) :: rest, k => if k = k0 then mapErase rest k else (k0, v0) :: mapErase rest k

/-- The child commitments of a node after the child updates: nil removes the child, any other
commitment replaces it. -/
def applyChildUpdates {VC : Type} (children : List (Byte × VC))
    (childUpdates : List (Byte × Option VC)) : List (Byte × VC) :=
  childUpdates.foldl
    (fun acc p => match p.2 with
      | none => mapErase acc p.1
      | some c => mapSet acc p.1 c)
    children

/-- A small deterministic commitment model over numbers: the commitment of a node is one plus
the length of its fragment, its terminal and the commitments of its children. -/
def sumModel : CommitmentModel Nat Nat where
  PathArity := 255
  UpdateNodeCommitment := fun nd childUpdates terminal pathFragment _ =>
    let children := applyChildUpdates nd.ChildCommitments childUpdates
    { PathFragment := pathFragment
      ChildCommitments := children
      Terminal := terminal
      Commitment :=
        some (1 + pathFragment.length + terminal.getD 0 + (children.map Prod.snd).sum) }

/-- The record of a root node that holds the terminal 49 under the empty key. -/
def rootRecord : NodeData Nat Nat :=
  { PathFragment := [], ChildCommitments := [], Terminal := some 49, Commitment := some 50 }

/-- A node store that holds exactly rootRecord, under its commitment 50. -/
def oneNodeStore : NodeStore Nat Nat where
  m := sumModel
  FetchNodeData := fun c => if c = some 50 then some rootRecord else none

/-- A trie opened at the root 50 of oneNodeStore, with one pending edit: a new terminal node
(fragment [98], terminal 7) attached under the symbol 97. -/
def editedTrie : Trie Nat Nat where
  nodeStore := oneNodeStore
  persistentRoot := some 50
  mutatedRoot :=
    .mk rootRecord (some 49) []
      [(97, some (.mk ⟨[], [], none, none⟩ (some 7) [98] []))]

/-- A buffered node with two pending edits: a new terminal node (fragment [98], terminal 7)
under the symbol 97 and a delete marker under the symbol 3. -/
def twoEditsNode : bufferedNode Nat Nat :=
  .mk rootRecord (some 49) []
    [(97, some (.mk ⟨[], [], none, none⟩ (some 7) [98] [])), (3, none)]

/-- The trie that NewTrie opens at the root 50 of oneNodeStore. -/
def openedTrie : Trie Nat Nat where
  nodeStore := oneNodeStore
  persistentRoot := some 50
  mutatedRoot := newBufferedNode (some rootRecord) []

/-- Stand-ins for the functions defined outside src, used to evaluate their callers: the
unpacking is the identity (as for the arity 256), update makes the mutation root a terminal
node for the path whose terminal is the length of the value, and delete makes it an empty
node for the path. -/
def standInInternals : Internals Nat Nat where
  UnpackBytes := fun b _ => b
  update := fun tr path value =>
    { tr with mutatedRoot := .mk ⟨[], [], none, none⟩ (some value.length) path [] }
  delete := fun tr path =>
    { tr with mutatedRoot := .mk ⟨[], [], none, none⟩ none path [] }

/-- A commitment reader over numbers, used to evaluate Trie.VectorCommitmentFromBytes: the
commitment is the first byte of the data, and the read fails on empty data. -/
def oneByteReader : VCommitmentReader Nat Nat String where
  Read := fun _ data =>
    match data with
    | [] => .error "EOF"
    | b :: rest => .ok (b.val, rest.length)
  ErrNotAllBytesConsumed := "not all bytes were consumed"

/-- The node twoEditsNode with its two pending entries in the other visiting order. -/
def twoEditsNodeReordered : bufferedNode Nat Nat :=
  .mk rootRecord (some 49) []
    [(3, none), (97, some (.mk ⟨[], [], none, none⟩ (some 7) [98] []))]

/-- A node store in which no commitment resolves: the store of a trie that was never
committed. -/
def emptyStore : NodeStore Nat Nat where
  m := sumModel
  FetchNodeData := fun _ => none

end Immutable

/-! ## Facts about the maps -/

namespace Immutable

theorem mapGet_mapSet {β : Type} (mp : List (Byte × β)) (k k1 : Byte) (v : β) :
    mapGet (mapSet mp k v) k1 = if k1 = k then some v else mapGet mp k1 := by
  induction mp with
  | nil => simp [mapSet, mapGet]
  | cons hd rest ih =>
    obtain ⟨k0, v0⟩ := hd
    by_cases h1 : k < k0
    · simp [mapSet, mapGet, h1]
    · by_cases h2 : k = k0
      · subst h2
        by_cases h5 : k1 = k
        · simp [mapSet, mapGet, h5]
        · simp [mapSet, mapGet, h5]
      · by_cases h3 : k1 = k0
        · subst h3
          have h4 : ¬ k1 = k := fun h => h2 h.symm
          simp [mapSet, mapGet, h1, h2, h4]
        · simp [mapSet, mapGet, h1, h2, h3, ih]

/-! ## Facts about commitNode -/

mutual
theorem commitNode_w {VC TC : Type} (w : KVWriter) (m : CommitmentModel VC TC) :
    ∀ node : bufferedNode VC TC, (commitNode w m node).w = w
  | .mk nodeData terminal pathFragment uncommittedChildren => by
    simp only [commitNode]
    exact commitLoop_w m ⟨w, [], []⟩ uncommittedChildren
theorem commitLoop_w {VC TC : Type} (m : CommitmentModel VC TC) (s : LoopState VC TC) :
    ∀ l : List (Byte × Option (bufferedNode VC TC)), (commitLoop m s l).w = s.w
  | [] => by simp [commitLoop]
  | (idx, none) :: rest => by
    simp only [commitLoop]
    exact commitLoop_w m _ rest
  | (idx, some child) :: rest => by
    simp only [commitLoop]
    rw [commitLoop_w m _ rest]
    exact commitNode_w s.w m child
end

theorem commitLoop_calls {VC TC : Type} (m : CommitmentModel VC TC) :
    ∀ (l : List (Byte × Option (bufferedNode VC TC))) (s : LoopState VC TC),
      (commitLoop m s l).calls = s.calls ++ childrenCalls s.w m l
  | [], s => by simp [commitLoop, childrenCalls]
  | (idx, none) :: rest, s => by
    simp only [commitLoop, childrenCalls]
    exact commitLoop_calls m rest _
  | (idx, some child) :: rest, s => by
    simp only [commitLoop, childrenCalls]
    rw [commitLoop_calls m rest _]
    simp [commitNode_w, List.append_assoc]

theorem commitLoop_childUpdates {VC TC : Type} (m : CommitmentModel VC TC) :
    ∀ (l : List (Byte × Option (bufferedNode VC TC))) (s : LoopState VC TC),
      (commitLoop m s l).childUpdates =
        l.foldl (fun acc p => mapSet acc p.1 (childCommitment s.w m p.2)) s.childUpdates
  | [], s => by simp [commitLoop]
  | (idx, none) :: rest, s => by
    simp only [commitLoop, List.foldl_cons]
    rw [commitLoop_childUpdates m rest _]
    simp [childCommitment]
  | (idx, some child) :: rest, s => by
    simp only [commitLoop, List.foldl_cons]
    rw [commitLoop_childUpdates m rest _]
    simp [commitNode_w, childCommitment]

theorem mapGet_foldl_mapSet {α β : Type} (g : α → β) (k : Byte) :
    ∀ (l : List (Byte × α)) (acc : List (Byte × β)), (l.map Prod.fst).Nodup →
      mapGet (l.foldl (fun acc p => mapSet acc p.1 (g p.2)) acc) k =
        match l.lookup k with
        | some c => some (g c)
        | none => mapGet acc k
  | [], acc, _ => by simp
  | (i, c) :: rest, acc, h => by
    have hnd : (rest.map Prod.fst).Nodup := by
      simp only [List.map_cons, List.nodup_cons] at h
      exact h.2
    have hni : i ∉ rest.map Prod.fst := by
      simp only [List.map_cons, List.nodup_cons] at h
      exact h.1
    simp only [List.foldl_cons]
    rw [mapGet_foldl_mapSet g k rest _ hnd]
    by_cases hk : k = i
    · subst hk
      have hl : rest.lookup k = none := by
        rw [List.lookup_eq_none_iff]
        intro p hp
        have hpk : p.1 ≠ k := fun hpk => hni (by
          simp only [List.mem_map]
          exact ⟨p, hp, hpk⟩)
        rw [bne_iff_ne]
        exact fun h => hpk h.symm
      simp [hl, List.lookup_cons, mapGet_mapSet]
    · have hb : (k == i) = false := by simpa using hk
      simp only [List.lookup_cons, hb, mapGet_mapSet, hk, if_false]

theorem lookup_of_mem_of_nodup {α : Type} (k : Byte) (c : α) :
    ∀ l : List (Byte × α), (l.map Prod.fst).Nodup → (k, c) ∈ l → l.lookup k = some c
  | [], _, h => by simp at h
  | (i, d) :: rest, hnd, h => by
    simp only [List.map_cons, List.nodup_cons] at hnd
    rcases List.mem_cons.mp h with h1 | h1
    · have hi : k = i := congrArg Prod.fst h1
      have hd : c = d := congrArg Prod.snd h1
      subst hi
      subst hd
      simp [List.lookup_cons]
    · have hki : k ≠ i := by
        intro hki
        apply hnd.1
        simp only [List.mem_map]
        exact ⟨(k, c), h1, hki⟩
      have hb : (k == i) = false := by simpa using hki
      simp only [List.lookup_cons, hb]
      exact lookup_of_mem_of_nodup k c rest hnd.2 h1

theorem lookup_isSome_iff_mem_keys {α : Type} (k : Byte) :
    ∀ l : List (Byte × α), (l.lookup k).isSome ↔ k ∈ l.map Prod.fst
  | [] => by simp
  | (i, d) :: rest => by
    by_cases hki : k = i
    · subst hki
      simp [List.lookup_cons]
    · have hb : (k == i) = false := by simpa using hki
      simp only [List.lookup_cons, hb, List.map_cons, List.mem_cons, hki, false_or]
      exact lookup_isSome_iff_mem_keys k rest

/-! ## The claims -/

/-- C1: Trie.Update unpacks the key with the path arity of the model and then performs
exactly one of the two internal operations on the unpacked key: the delete when the value is
empty, the insert/update with that value otherwise. Whatever the internal operations do, the
outcome of Update is the outcome of that single operation. -/
theorem Update_performs_delete_or_insert {VC TC : Type} (d : Internals VC TC)
    (tr : Trie VC TC) (triePath value : List Byte) :
    (value = [] ∧
      tr.Update d triePath value =
        d.delete tr (d.UnpackBytes triePath tr.nodeStore.m.PathArity)) ∨
    (value ≠ [] ∧
      tr.Update d triePath value =
        d.update tr (d.UnpackBytes triePath tr.nodeStore.m.PathArity) value) := by
  cases value with
  | nil => exact Or.inl ⟨rfl, rfl⟩
  | cons b rest =>
    refine Or.inr ⟨by simp, ?_⟩
    simp [Trie.Update, TrieReader.PathArity]

/-- C2, the code at a failing input: Commit returns the commitment of the mutation root and
never assigns the persisted root, so RootCommitment still answers the root the trie was
opened at. On editedTrie, Commit returns 59 and RootCommitment afterwards returns 50. -/
theorem Commit_leaves_persistentRoot :
    (∀ (VC TC : Type) (tr : Trie VC TC) (w : KVWriter),
      (tr.Commit w).trie.RootCommitment = tr.RootCommitment) ∧
    (editedTrie.Commit []).ret = some 59 ∧
    (editedTrie.Commit []).trie.RootCommitment = some 50 := by
  refine ⟨fun _ _ _ _ => rfl, ?_, ?_⟩
  · decide
  · decide

/-- C3, the code at a failing input: commitNode hands the writer down to every node but never
calls it, so Commit leaves the writer without any write. On editedTrie, which has a pending
edit, Commit commits two nodes (two invocations of UpdateNodeCommitment) and writes
nothing. -/
theorem Commit_writes_nothing :
    (∀ (VC TC : Type) (tr : Trie VC TC) (w : KVWriter), (tr.Commit w).w = w) ∧
    (editedTrie.Commit []).calls.length = 2 ∧
    (editedTrie.Commit []).w = [] := by
  refine ⟨fun _ _ tr w => ?_, ?_, ?_⟩
  · simp [Trie.Commit, commitNode_w]
  · decide
  · decide

/-- C4: commitNode commits the pending children that are not delete-marked before it invokes
UpdateNodeCommitment on the node itself: the invocations made by the commits of the children
come first, in visiting order, and the invocation on the node is the last one. The
child-update map of that invocation has exactly the pending child symbols as keys; it maps a
delete-marked symbol to nil and any other symbol to the commitment that its child holds after
its own commit. The pending children are the entries of a Go map, so their symbols are
pairwise distinct. -/
theorem commitNode_children_first {VC TC : Type} (w : KVWriter) (m : CommitmentModel VC TC)
    (node : bufferedNode VC TC)
    (hkeys : (node.uncommittedChildren.map Prod.fst).Nodup) :
    ∃ childUpdates : List (Byte × Option VC),
      (commitNode w m node).calls =
        childrenCalls w m node.uncommittedChildren ++
          [⟨node.nodeData, childUpdates, node.terminal, node.pathFragment,
            !IsNil node.nodeData.Commitment⟩] ∧
      (∀ idx, (mapGet childUpdates idx).isSome ↔ idx ∈ node.uncommittedChildren.map Prod.fst) ∧
      (∀ idx, (idx, none) ∈ node.uncommittedChildren → mapGet childUpdates idx = some none) ∧
      (∀ idx child, (idx, some child) ∈ node.uncommittedChildren →
        mapGet childUpdates idx = some (commitNode w m child).node.nodeData.Commitment) := by
  obtain ⟨nodeData, terminal, pathFragment, pending⟩ := node
  simp only [bufferedNode.uncommittedChildren] at hkeys
  simp only [bufferedNode.uncommittedChildren, bufferedNode.nodeData, bufferedNode.terminal,
    bufferedNode.pathFragment]
  have hget : ∀ idx,
      mapGet (commitLoop m ⟨w, [], []⟩ pending).childUpdates idx =
        (pending.lookup idx).map (childCommitment w m) := by
    intro idx
    rw [commitLoop_childUpdates, mapGet_foldl_mapSet (childCommitment w m) idx pending [] hkeys]
    cases pending.lookup idx <;> simp [mapGet]
  refine ⟨(commitLoop m ⟨w, [], []⟩ pending).childUpdates, ?_, ?_, ?_, ?_⟩
  · simp [commitNode, commitLoop_calls]
  · intro idx
    rw [hget idx, ← lookup_isSome_iff_mem_keys idx pending]
    cases pending.lookup idx <;> simp
  · intro idx h
    rw [hget idx, lookup_of_mem_of_nodup idx none pending hkeys h]
    rfl
  · intro idx child h
    rw [hget idx, lookup_of_mem_of_nodup idx (some child) pending hkeys h]
    rfl

/-- C4 at a concrete node: twoEditsNode, with a new child under the symbol 97 and a delete
marker under the symbol 3. -/
theorem commitNode_children_first_witness :
    (twoEditsNode.uncommittedChildren.map Prod.fst).Nodup ∧
    ∃ childUpdates : List (Byte × Option Nat),
      (commitNode [] sumModel twoEditsNode).calls =
        childrenCalls [] sumModel twoEditsNode.uncommittedChildren ++
          [⟨twoEditsNode.nodeData, childUpdates, twoEditsNode.terminal,
            twoEditsNode.pathFragment, !IsNil twoEditsNode.nodeData.Commitment⟩] ∧
      (∀ idx, (mapGet childUpdates idx).isSome ↔
        idx ∈ twoEditsNode.uncommittedChildren.map Prod.fst) ∧
      (∀ idx, (idx, none) ∈ twoEditsNode.uncommittedChildren →
        mapGet childUpdates idx = some none) ∧
      (∀ idx child, (idx, some child) ∈ twoEditsNode.uncommittedChildren →
        mapGet childUpdates idx = some (commitNode [] sumModel child).node.nodeData.Commitment) :=
  ⟨by decide, commitNode_children_first [] sumModel twoEditsNode (by decide)⟩

/-- C5: NewTrie returns an error, and no Trie, exactly when the root commitment does not
resolve in the node store, and it returns a Trie with a nil error exactly when the root
resolves. -/
theorem NewTrie_error_iff_root_not_found {VC TC : Type} (nodeStore : NodeStore VC TC)
    (root : Option VC) :
    ((∃ e, NewTrie nodeStore root = .error e) ↔ nodeStore.FetchNodeData root = none) ∧
    ((∃ tr, NewTrie nodeStore root = .ok tr) ↔ nodeStore.FetchNodeData root ≠ none) := by
  unfold NewTrie
  cases h : nodeStore.FetchNodeData root <;> simp

/-- C7, the code at a failing input: the empty key is present under the root 50 of
oneNodeStore (the root record holds the terminal 49), and GetProofGeneric for that key
panics with "implement me" in place of returning a proof of inclusion. -/
theorem GetProofGeneric_present_key_panics :
    oneNodeStore.FetchNodeData (some 50) = some rootRecord ∧
    rootRecord.PathFragment = [] ∧ rootRecord.Terminal = some 49 ∧
    GetProofGeneric oneNodeStore (some 50) [] = .error "implement me" :=
  ⟨rfl, rfl, rfl, rfl⟩

/-- C8, the code at a failing input: the key [97] was never inserted under the root 50 of
oneNodeStore, and GetProofGeneric for that key panics with "implement me" in place of
returning a proof of absence. -/
theorem GetProofGeneric_absent_key_panics :
    GetProofGeneric oneNodeStore (some 50) [97] = .error "implement me" :=
  rfl

/-- C9, the code at a failing input: the nil root does not resolve in emptyStore, and
GetProofGeneric panics with "implement me" in place of returning a proof with an empty path
and the ending EndingRootNotFound; it does so for every store, root and key. -/
theorem GetProofGeneric_unresolved_root_panics :
    emptyStore.FetchNodeData none = none ∧
    GetProofGeneric emptyStore none [] = .error "implement me" ∧
    (∀ (VC TC : Type) (nodeStore : NodeStore VC TC) (root : Option VC) (triePath : List Byte)
        (p : ProofGeneric VC TC), GetProofGeneric nodeStore root triePath ≠ .ok p) := by
  refine ⟨rfl, rfl, ?_⟩
  intro VC TC nodeStore root triePath p h
  simp [GetProofGeneric, fetchPath] at h

/-- C10, the code at a failing input: the root 50 resolves in oneNodeStore, and fetchPath
returns no path and no ending code for any unpacked key: it panics with "implement me". -/
theorem fetchPath_resolved_root_panics :
    oneNodeStore.FetchNodeData (some 50) = some rootRecord ∧
    (∀ triePath : List Byte,
      fetchPath oneNodeStore (some 50) triePath = .error "implement me") :=
  ⟨rfl, fun _ => rfl⟩

/-! ## Facts about commonPrefix -/

theorem commonPrefixLoop_spec :
    ∀ (xs ys : List Byte) (i : Nat) (ret : List Byte),
      ∃ q t1 t2, commonPrefixLoop xs ys i ret = (i + q.length, ret ++ q) ∧
        xs = q ++ t1 ∧ ys = q ++ t2 ∧ (t1 = [] ∨ t2 = [] ∨ t1.head? ≠ t2.head?)
  | [], ys, i, ret => ⟨[], [], ys, by simp [commonPrefixLoop]⟩
  | x :: xs, [], i, ret => ⟨[], x :: xs, [], by simp [commonPrefixLoop]⟩
  | x :: xs, y :: ys, i, ret => by
    by_cases hxy : x = y
    · subst hxy
      obtain ⟨q, t1, t2, h1, h2, h3, h4⟩ := commonPrefixLoop_spec xs ys (i + 1) (ret ++ [x])
      refine ⟨x :: q, t1, t2, ?_, ?_, ?_, h4⟩
      · simp only [commonPrefixLoop, ne_eq, not_true_eq_false, if_false, h1, List.length_cons,
          List.append_assoc, List.singleton_append, Prod.mk.injEq, and_true]
        omega
      · simp [h2]
      · simp [h3]
    · refine ⟨[], x :: xs, y :: ys, ?_, rfl, rfl, ?_⟩
      · simp [commonPrefixLoop, hxy]
      · simp [hxy]

theorem commonPrefix_fst (b1 b2 : List Byte) :
    ∃ t1 t2, b1 = (commonPrefix b1 b2).1 ++ t1 ∧ b2 = (commonPrefix b1 b2).1 ++ t2 ∧
      (t1 = [] ∨ t2 = [] ∨ t1.head? ≠ t2.head?) := by
  obtain ⟨q, t1, t2, h1, h2, h3, h4⟩ := commonPrefixLoop_spec b1 b2 0 []
  have hp : (commonPrefix b1 b2).1 = q := by simp [commonPrefix, h1]
  rw [hp]
  exact ⟨t1, t2, h2, h3, h4⟩

/-- C13: the first result p of commonPrefix(b1, b2) is the longest common prefix: p is a
prefix of b1 and of b2, so its length is at most the length of either and the loop reads no
index out of bounds (the function is total), and p is all of b1, or all of b2, or b1 and b2
differ at the position len p. -/
theorem commonPrefix_longest (b1 b2 : List Byte) :
    (commonPrefix b1 b2).1 <+: b1 ∧ (commonPrefix b1 b2).1 <+: b2 ∧
    (commonPrefix b1 b2).1.length ≤ min b1.length b2.length ∧
    ((commonPrefix b1 b2).1 = b1 ∨ (commonPrefix b1 b2).1 = b2 ∨
      ((commonPrefix b1 b2).1.length < b1.length ∧ (commonPrefix b1 b2).1.length < b2.length ∧
        b1[(commonPrefix b1 b2).1.length]? ≠ b2[(commonPrefix b1 b2).1.length]?)) := by
  obtain ⟨t1, t2, h1, h2, h3⟩ := commonPrefix_fst b1 b2
  generalize (commonPrefix b1 b2).1 = p at h1 h2
  subst h1
  subst h2
  refine ⟨List.prefix_append _ _, List.prefix_append _ _, by simp, ?_⟩
  cases t1 with
  | nil => exact Or.inl (by simp)
  | cons x t1 =>
    cases t2 with
    | nil => exact Or.inr (Or.inl (by simp))
    | cons y t2 =>
      have hxy : x ≠ y := by
        rcases h3 with h | h | h
        · simp at h
        · simp at h
        · simpa using h
      have e1 : (p ++ x :: t1)[p.length]? = some x := by
        rw [List.getElem?_append_right (le_refl _)]
        simp
      have e2 : (p ++ y :: t2)[p.length]? = some y := by
        rw [List.getElem?_append_right (le_refl _)]
        simp
      refine Or.inr (Or.inr ⟨by simp, by simp, ?_⟩)
      rw [e1, e2]
      simpa using hxy

/-! ## More facts about commitNode -/

theorem commitNode_calls {VC TC : Type} (w : KVWriter) (m : CommitmentModel VC TC)
    (node : bufferedNode VC TC) :
    (commitNode w m node).calls =
      childrenCalls w m node.uncommittedChildren ++
        [⟨node.nodeData, (commitLoop m ⟨w, [], []⟩ node.uncommittedChildren).childUpdates,
          node.terminal, node.pathFragment, !IsNil node.nodeData.Commitment⟩] := by
  obtain ⟨nodeData, terminal, pathFragment, pending⟩ := node
  simp [commitNode, commitLoop_calls, bufferedNode.uncommittedChildren, bufferedNode.nodeData,
    bufferedNode.terminal, bufferedNode.pathFragment]

theorem commitNode_node {VC TC : Type} (w : KVWriter) (m : CommitmentModel VC TC)
    (node : bufferedNode VC TC) :
    (commitNode w m node).node =
      .mk (m.UpdateNodeCommitment node.nodeData
            (commitLoop m ⟨w, [], []⟩ node.uncommittedChildren).childUpdates
            node.terminal node.pathFragment (!IsNil node.nodeData.Commitment))
        node.terminal node.pathFragment [] := by
  obtain ⟨nodeData, terminal, pathFragment, pending⟩ := node
  simp [commitNode, bufferedNode.uncommittedChildren, bufferedNode.nodeData,
    bufferedNode.terminal, bufferedNode.pathFragment]

/-! ## The claims, continued -/

/-- C11, the code at a failing input: openedTrie is the trie opened at the root 50 of
oneNodeStore, which holds the terminal 49 under the empty key, and Reconcile on the store
that yields the single pair of the empty key and the value [49] panics with "implement me"
in place of returning a list of keys; it does so for every trie and every store. -/
theorem Reconcile_panics :
    NewTrie oneNodeStore (some 50) = .ok openedTrie ∧
    openedTrie.Reconcile [([], [49])] = .error "implement me" ∧
    (∀ (VC TC : Type) (tr : Trie VC TC) (store : KVIterator) (keys : List (List Byte)),
      tr.Reconcile store ≠ .ok keys) := by
  refine ⟨rfl, rfl, ?_⟩
  intro VC TC tr store keys h
  simp [Trie.Reconcile] at h

/-- C12: Trie.VectorCommitmentFromBytes returns a commitment with a nil error exactly when
the read of the model's commitment reader succeeds on the data and leaves no byte unread,
and the commitment is the one read; when the read succeeds and leaves at least one byte
unread it returns no commitment and ErrNotAllBytesConsumed; when the read fails it returns
no commitment and the error of the read unchanged. -/
theorem VectorCommitmentFromBytes_cases {VC TC Err : Type} (r : VCommitmentReader VC TC Err)
    (tr : Trie VC TC) (data : List Byte) :
    (∀ c, tr.VectorCommitmentFromBytes r data = .ok c ↔
      r.Read tr.nodeStore.m data = .ok (c, 0)) ∧
    (∀ c n, r.Read tr.nodeStore.m data = .ok (c, n + 1) →
      tr.VectorCommitmentFromBytes r data = .error r.ErrNotAllBytesConsumed) ∧
    (∀ e, r.Read tr.nodeStore.m data = .error e →
      tr.VectorCommitmentFromBytes r data = .error e) := by
  unfold Trie.VectorCommitmentFromBytes
  refine ⟨?_, ?_, ?_⟩
  · intro c
    cases h : r.Read tr.nodeStore.m data with
    | error e => simp
    | ok res =>
      obtain ⟨ret, n⟩ := res
      cases n with
      | zero => simp
      | succ n => simp
  · intro c n h
    simp [h]
  · intro e h
    simp [h]

/-- C12 at the data [7, 8] for oneByteReader, which reads the commitment 7 and leaves one
byte unread. -/
theorem VectorCommitmentFromBytes_cases_witness :
    oneByteReader.Read openedTrie.nodeStore.m [7, 8] = .ok (7, 1) ∧
    openedTrie.VectorCommitmentFromBytes oneByteReader [7, 8] =
      .error oneByteReader.ErrNotAllBytesConsumed :=
  ⟨rfl, (VectorCommitmentFromBytes_cases oneByteReader openedTrie [7, 8]).2.1 7 0 rfl⟩

/-- C14: the flag that commitNode passes to UpdateNodeCommitment for a node (in its own
invocation, the last one of the run) is true exactly when the commitment stored in the node
data was not nil before this commit of the node, and the node data, path fragment and
terminal passed are the ones the buffered node holds. -/
theorem commitNode_prior_commitment_flag {VC TC : Type} (w : KVWriter)
    (m : CommitmentModel VC TC) (node : bufferedNode VC TC) :
    ∃ c, (commitNode w m node).calls.getLast? = some c ∧
      c.mutate = node.nodeData ∧
      (c.calcDelta = true ↔ node.nodeData.Commitment ≠ none) ∧
      c.pathFragment = node.pathFragment ∧
      c.terminal = node.terminal := by
  rw [commitNode_calls]
  refine ⟨_, List.getLast?_concat _, rfl, ?_, rfl, rfl⟩
  cases h : node.nodeData.Commitment <;> simp [IsNil, h]

/-- C15: after Commit the pending-edit state is cleared: the set of uncommitted children of
the mutation root is empty, so no pending child and no delete marker is left under it. -/
theorem Commit_clears_uncommittedChildren {VC TC : Type} (tr : Trie VC TC) (w : KVWriter) :
    (tr.Commit w).trie.mutatedRoot.uncommittedChildren = [] := by
  simp [Trie.Commit, commitNode_node, bufferedNode.uncommittedChildren]

/-- C17: Trie.Delete(key) is Trie.Update(key, nil), and its outcome is the outcome of the
internal delete of the unpacked key, whatever the internal operations do: the internal
insert/update plays no part. -/
theorem Delete_is_Update_nil {VC TC : Type} (d : Internals VC TC) (tr : Trie VC TC)
    (key : List Byte) :
    tr.Delete d key = tr.Update d key [] ∧
    tr.Delete d key = d.delete tr (d.UnpackBytes key tr.nodeStore.m.PathArity) ∧
    (∀ update1 update2 : Trie VC TC → List Byte → List Byte → Trie VC TC,
      tr.Delete { d with update := update1 } key = tr.Delete { d with update := update2 } key) :=
  ⟨rfl, rfl, fun _ _ => rfl⟩

/-- C18: when the root commitment resolves in the node store, NewTrie returns a Trie bound to
it: RootCommitment returns the supplied root, the node store is the supplied one, and the
mutation root is the fresh buffered node built from the node data fetched for that root. -/
theorem NewTrie_bound_to_root {VC TC : Type} (nodeStore : NodeStore VC TC) (root : Option VC)
    (rootNodeData : NodeData VC TC) (h : nodeStore.FetchNodeData root = some rootNodeData) :
    ∃ tr, NewTrie nodeStore root = .ok tr ∧
      tr.RootCommitment = root ∧
      tr.nodeStore = nodeStore ∧
      tr.mutatedRoot = newBufferedNode (some rootNodeData) [] := by
  refine ⟨{ persistentRoot := root
            nodeStore := nodeStore
            mutatedRoot := newBufferedNode (some rootNodeData) [] }, ?_, rfl, rfl, rfl⟩
  simp [NewTrie, h]

/-- C18 at the root 50 of oneNodeStore. -/
theorem NewTrie_bound_to_root_witness :
    oneNodeStore.FetchNodeData (some 50) = some rootRecord ∧
    ∃ tr, NewTrie oneNodeStore (some 50) = .ok tr ∧
      tr.RootCommitment = some 50 ∧
      tr.nodeStore = oneNodeStore ∧
      tr.mutatedRoot = newBufferedNode (some rootRecord) [] :=
  ⟨rfl, NewTrie_bound_to_root oneNodeStore (some 50) rootRecord rfl⟩

/-- C19, the code at a failing input: for the root 50 of oneNodeStore and the unpacked key
[1, 2], GetProofGeneric panics with the panic of fetchPath, "implement me", so it returns no
proof whose Key is [1, 2]. GetProofGeneric itself only passes on the outcome of fetchPath,
with the key attached to a returned path and ending. -/
theorem GetProofGeneric_returns_no_key :
    fetchPath oneNodeStore (some 50) [1, 2] = .error "implement me" ∧
    GetProofGeneric oneNodeStore (some 50) [1, 2] = .error "implement me" ∧
    (∀ p : ProofGeneric Nat Nat,
      p.Key = [1, 2] → GetProofGeneric oneNodeStore (some 50) [1, 2] ≠ .ok p) ∧
    (∀ (VC TC : Type) (nodeStore : NodeStore VC TC) (root : Option VC) (triePath : List Byte),
      GetProofGeneric nodeStore root triePath =
        (fetchPath nodeStore root triePath).map
          (fun r => { Key := triePath, Path := r.1, Ending := r.2 })) := by
  refine ⟨rfl, rfl, ?_, ?_⟩
  · intro p _ h
    simp [GetProofGeneric, fetchPath] at h
  · intro VC TC nodeStore root triePath
    rfl

/-- C20: for a key and a value that are each nil, a byte slice or a string, UpdateStr is
Update on the corresponding byte sequences and DeleteStr is Delete on the bytes of the key;
so UpdateStr with a nil or empty value performs the internal delete of the unpacked key. -/
theorem UpdateStr_is_Update {VC TC : Type} (d : Internals VC TC) (tr : Trie VC TC)
    (key value : Any) (k v : List Byte)
    (hk : key.correspondingBytes = some k) (hv : value.correspondingBytes = some v) :
    tr.UpdateStr d key value = .ok (tr.Update d k v) ∧
    tr.DeleteStr d key = .ok (tr.Delete d k) ∧
    (v = [] →
      tr.UpdateStr d key value =
        .ok (d.delete tr (d.UnpackBytes k tr.nodeStore.m.PathArity))) := by
  have h1 : tr.UpdateStr d key value = .ok (tr.Update d k v) := by
    cases key <;> cases value <;> simp_all [Trie.UpdateStr, Any.correspondingBytes]
  have h2 : tr.DeleteStr d key = .ok (tr.Delete d k) := by
    cases key <;> simp_all [Trie.DeleteStr, Any.correspondingBytes]
  refine ⟨h1, h2, ?_⟩
  intro hv0
  subst hv0
  rw [h1]
  rfl

/-- C20 at the string key "a" and the nil value, on openedTrie. -/
theorem UpdateStr_is_Update_witness :
    (Any.string [97]).correspondingBytes = some [97] ∧
    Any.nil.correspondingBytes = some [] ∧
    openedTrie.UpdateStr standInInternals (.string [97]) .nil =
      .ok (openedTrie.Update standInInternals [97] []) ∧
    openedTrie.DeleteStr standInInternals (.string [97]) =
      .ok (openedTrie.Delete standInInternals [97]) ∧
    (([] : List Byte) = [] →
      openedTrie.UpdateStr standInInternals (.string [97]) .nil =
        .ok (standInInternals.delete openedTrie
          (standInInternals.UnpackBytes [97] openedTrie.nodeStore.m.PathArity))) :=
  ⟨rfl, rfl, UpdateStr_is_Update standInInternals openedTrie (.string [97]) .nil [97] []
    rfl rfl⟩

/-! ## Visiting order of the pending children -/

theorem mapSet_nil {β : Type} (k : Byte) (v : β) : mapSet ([] : List (Byte × β)) k v = [(k, v)] :=
  rfl

theorem mapSet_cons_lt {β : Type} (k k0 : Byte) (v v0 : β) (rest : List (Byte × β))
    (h : k < k0) : mapSet ((k0, v0) :: rest) k v = (k, v) :: (k0, v0) :: rest := by
  simp [mapSet, h]

theorem mapSet_cons_eq {β : Type} (k : Byte) (v v0 : β) (rest : List (Byte × β)) :
    mapSet ((k, v0) :: rest) k v = (k, v) :: rest := by
  simp [mapSet]

theorem mapSet_cons_gt {β : Type} (k k0 : Byte) (v v0 : β) (rest : List (Byte × β))
    (h : k0 < k) : mapSet ((k0, v0) :: rest) k v = (k0, v0) :: mapSet rest k v := by
  have h1 : ¬ k < k0 := not_lt_of_lt h
  have h2 : ¬ k = k0 := fun e => lt_irrefl k0 (e ▸ h)
  simp [mapSet, h1, h2]

theorem mapSet_comm_of_lt {β : Type} (k1 k2 : Byte) (v1 v2 : β) (hk : k1 < k2) :
    ∀ mp : List (Byte × β),
      mapSet (mapSet mp k1 v1) k2 v2 = mapSet (mapSet mp k2 v2) k1 v1
  | [] => by
    rw [mapSet_nil, mapSet_nil, mapSet_cons_gt k2 k1 v2 v1 [] hk, mapSet_nil,
      mapSet_cons_lt k1 k2 v1 v2 [] hk]
  | (k0, v0) :: rest => by
    rcases lt_trichotomy k0 k1 with h | h | h
    · have h2 : k0 < k2 := lt_trans h hk
      rw [mapSet_cons_gt k1 k0 v1 v0 rest h, mapSet_cons_gt k2 k0 v2 v0 _ h2,
        mapSet_cons_gt k2 k0 v2 v0 rest h2, mapSet_cons_gt k1 k0 v1 v0 _ h,
        mapSet_comm_of_lt k1 k2 v1 v2 hk rest]
    · subst h
      rw [mapSet_cons_eq, mapSet_cons_gt k2 k0 v2 v1 rest hk,
        mapSet_cons_gt k2 k0 v2 v0 rest hk, mapSet_cons_eq]
    · rw [mapSet_cons_lt k1 k0 v1 v0 rest h, mapSet_cons_gt k2 k1 v2 v1 _ hk]
      rcases lt_trichotomy k0 k2 with g | g | g
      · rw [mapSet_cons_gt k2 k0 v2 v0 rest g, mapSet_cons_lt k1 k0 v1 v0 _ h]
      · subst g
        rw [mapSet_cons_eq, mapSet_cons_lt k1 k0 v1 v2 rest h]
      · rw [mapSet_cons_lt k2 k0 v2 v0 rest g, mapSet_cons_lt k1 k2 v1 v2 _ hk]

theorem mapSet_comm {β : Type} (k1 k2 : Byte) (v1 v2 : β) (hk : k1 ≠ k2)
    (mp : List (Byte × β)) :
    mapSet (mapSet mp k1 v1) k2 v2 = mapSet (mapSet mp k2 v2) k1 v1 := by
  rcases lt_trichotomy k1 k2 with h | h | h
  · exact mapSet_comm_of_lt k1 k2 v1 v2 h mp
  · exact absurd h hk
  · exact (mapSet_comm_of_lt k2 k1 v2 v1 h mp).symm

theorem childrenCalls_cons {VC TC : Type} (w : KVWriter) (m : CommitmentModel VC TC)
    (p : Byte × Option (bufferedNode VC TC)) (l : List (Byte × Option (bufferedNode VC TC))) :
    childrenCalls w m (p :: l) = entryCalls w m p ++ childrenCalls w m l := by
  obtain ⟨idx, c⟩ := p
  cases c <;> simp [childrenCalls, entryCalls]

theorem childrenCalls_append {VC TC : Type} (w : KVWriter) (m : CommitmentModel VC TC) :
    ∀ l1 l2 : List (Byte × Option (bufferedNode VC TC)),
      childrenCalls w m (l1 ++ l2) = childrenCalls w m l1 ++ childrenCalls w m l2
  | [], l2 => by simp [childrenCalls]
  | p :: l1, l2 => by
    rw [List.cons_append, childrenCalls_cons, childrenCalls_append w m l1 l2,
      childrenCalls_cons w m p l1, List.append_assoc]

theorem childrenCalls_perm {VC TC : Type} (w : KVWriter) (m : CommitmentModel VC TC)
    {l1 l2 : List (Byte × Option (bufferedNode VC TC))} (h : l1.Perm l2) :
    (childrenCalls w m l1).Perm (childrenCalls w m l2) := by
  induction h with
  | nil => exact List.Perm.refl _
  | cons x _ ih =>
    rw [childrenCalls_cons w m x, childrenCalls_cons w m x]
    exact List.Perm.append_left _ ih
  | swap x y l =>
    rw [childrenCalls_cons w m y, childrenCalls_cons w m x, childrenCalls_cons w m x,
      childrenCalls_cons w m y, ← List.append_assoc, ← List.append_assoc]
    exact List.Perm.append_right _ List.perm_append_comm
  | trans _ _ ih1 ih2 => exact ih1.trans ih2

theorem childUpdates_perm {VC TC : Type} (w : KVWriter) (m : CommitmentModel VC TC)
    {l1 l2 : List (Byte × Option (bufferedNode VC TC))}
    (hnd : (l1.map Prod.fst).Nodup) (h : l1.Perm l2) :
    (commitLoop m ⟨w, [], []⟩ l1).childUpdates = (commitLoop m ⟨w, [], []⟩ l2).childUpdates := by
  rw [commitLoop_childUpdates, commitLoop_childUpdates]
  apply List.Perm.foldl_eq' h
  intro x hx y hy z
  by_cases hxy : x.1 = y.1
  · have e : x = y := List.inj_on_of_nodup_map hnd hx hy hxy
    rw [e]
  · exact mapSet_comm x.1 y.1 _ _ hxy z

theorem childUpdates_child {VC TC : Type} (w : KVWriter) (m : CommitmentModel VC TC)
    (pre post : List (Byte × Option (bufferedNode VC TC))) (idx : Byte)
    (c1 c2 : bufferedNode VC TC)
    (h : (commitNode w m c1).node = (commitNode w m c2).node) :
    (commitLoop m ⟨w, [], []⟩ (pre ++ (idx, some c1) :: post)).childUpdates =
      (commitLoop m ⟨w, [], []⟩ (pre ++ (idx, some c2) :: post)).childUpdates := by
  rw [commitLoop_childUpdates, commitLoop_childUpdates]
  simp only [List.foldl_append, List.foldl_cons, childCommitment, h]

/-- C16: the outcome of commitNode does not depend on the order in which the pending
children of the nodes are visited. The model is a function of its arguments, the child-update
map among them, so it is deterministic. For two buffered trees that hold the same pending
edits and differ only in visiting orders, at any depth, commitNode leaves the same node
(hence the same root commitment), makes the same invocations of UpdateNodeCommitment up to
their order, so that the same child-update map is passed and the same commitment assigned at
every node, and ends with the same invocation on the root. -/
theorem commitNode_visiting_order {VC TC : Type} (w : KVWriter) (m : CommitmentModel VC TC)
    (n1 n2 : bufferedNode VC TC) (h : SameEdits n1 n2) :
    (commitNode w m n1).node = (commitNode w m n2).node ∧
    (commitNode w m n1).node.nodeData.Commitment = (commitNode w m n2).node.nodeData.Commitment ∧
    (commitNode w m n1).calls.Perm (commitNode w m n2).calls ∧
    (commitNode w m n1).calls.getLast? = (commitNode w m n2).calls.getLast? := by
  induction h with
  | refl n => exact ⟨rfl, rfl, List.Perm.refl _, rfl⟩
  | reorder nd t f l1 l2 hnd hperm =>
    have hu := childUpdates_perm w m hnd hperm
    have hnode : (commitNode w m (.mk nd t f l1)).node = (commitNode w m (.mk nd t f l2)).node := by
      rw [commitNode_node, commitNode_node]
      simp only [bufferedNode.uncommittedChildren, bufferedNode.nodeData, bufferedNode.terminal,
        bufferedNode.pathFragment, hu]
    refine ⟨hnode, by rw [hnode], ?_, ?_⟩
    · rw [commitNode_calls, commitNode_calls]
      simp only [bufferedNode.uncommittedChildren, bufferedNode.nodeData, bufferedNode.terminal,
        bufferedNode.pathFragment, hu]
      exact List.Perm.append_right _ (childrenCalls_perm w m hperm)
    · rw [commitNode_calls, commitNode_calls]
      simp only [bufferedNode.uncommittedChildren, bufferedNode.nodeData, bufferedNode.terminal,
        bufferedNode.pathFragment, hu, List.getLast?_concat]
  | child nd t f pre post idx c1 c2 _ ih =>
    have hu := childUpdates_child w m pre post idx c1 c2 ih.1
    have hnode : (commitNode w m (.mk nd t f (pre ++ (idx, some c1) :: post))).node =
        (commitNode w m (.mk nd t f (pre ++ (idx, some c2) :: post))).node := by
      rw [commitNode_node, commitNode_node]
      simp only [bufferedNode.uncommittedChildren, bufferedNode.nodeData, bufferedNode.terminal,
        bufferedNode.pathFragment, hu]
    refine ⟨hnode, by rw [hnode], ?_, ?_⟩
    · rw [commitNode_calls, commitNode_calls]
      simp only [bufferedNode.uncommittedChildren, bufferedNode.nodeData, bufferedNode.terminal,
        bufferedNode.pathFragment, hu]
      apply List.Perm.append_right
      rw [childrenCalls_append, childrenCalls_append, childrenCalls_cons w m (idx, some c1),
        childrenCalls_cons w m (idx, some c2)]
      apply List.Perm.append_left
      apply List.Perm.append_right
      exact ih.2.2.1
    · rw [commitNode_calls, commitNode_calls]
      simp only [bufferedNode.uncommittedChildren, bufferedNode.nodeData, bufferedNode.terminal,
        bufferedNode.pathFragment, hu, List.getLast?_concat]
  | trans a b c _ _ ih1 ih2 =>
    exact ⟨ih1.1.trans ih2.1, ih1.2.1.trans ih2.2.1, ih1.2.2.1.trans ih2.2.2.1,
      ih1.2.2.2.trans ih2.2.2.2⟩

/-- C16 at twoEditsNode and the same node with its two pending entries visited in the other
order. -/
theorem commitNode_visiting_order_witness :
    SameEdits twoEditsNode twoEditsNodeReordered ∧
    (commitNode [] sumModel twoEditsNode).node =
      (commitNode [] sumModel twoEditsNodeReordered).node ∧
    (commitNode [] sumModel twoEditsNode).node.nodeData.Commitment =
      (commitNode [] sumModel twoEditsNodeReordered).node.nodeData.Commitment ∧
    (commitNode [] sumModel twoEditsNode).calls.Perm
      (commitNode [] sumModel twoEditsNodeReordered).calls ∧
    (commitNode [] sumModel twoEditsNode).calls.getLast? =
      (commitNode [] sumModel twoEditsNodeReordered).calls.getLast? :=
  have h : SameEdits twoEditsNode twoEditsNodeReordered :=
    SameEdits.reorder rootRecord (some 49) [] _ _ (by decide) (List.Perm.swap _ _ _)
  ⟨h, commitNode_visiting_order [] sumModel twoEditsNode twoEditsNodeReordered h⟩

/-! ## Facts about Iterate -/

theorem Iterate_continue {σ : Type} (g : σ → List Byte → List Byte → σ) :
    ∀ (store : KVIterator) (s : σ),
      KVIterator.Iterate (fun s k v => (g s k v, true)) store s =
        store.foldl (fun s p => g s p.1 p.2) s
  | [], s => rfl
  | (k, v) :: rest, s => by
    simp only [KVIterator.Iterate, if_true, List.foldl_cons]
    exact Iterate_continue g rest (g s k v)

/-! ## The claims, third part -/

/-- C21: Trie.UpdateAll applies Trie.Update to every pair that the iterator yields, once each
and in the order of the iterator, and never stops the iteration early (its callback always
returns true): its effect is the fold of Update over the pairs, so the first pair is applied
first, the last pair last, and a last pair with an empty value is applied as the internal
delete of its unpacked key. -/
theorem UpdateAll_is_fold_of_Update {VC TC : Type} (d : Internals VC TC) (tr : Trie VC TC)
    (store : KVIterator) :
    tr.UpdateAll d store = store.foldl (fun t p => t.Update d p.1 p.2) tr ∧
    (∀ k v, tr.UpdateAll d ((k, v) :: store) = (tr.Update d k v).UpdateAll d store) ∧
    (∀ k v, tr.UpdateAll d (store ++ [(k, v)]) = (tr.UpdateAll d store).Update d k v) ∧
    (∀ k, tr.UpdateAll d (store ++ [(k, [])]) =
      d.delete (tr.UpdateAll d store)
        (d.UnpackBytes k (tr.UpdateAll d store).nodeStore.m.PathArity)) := by
  have hfold : ∀ (t : Trie VC TC) (st : KVIterator),
      t.UpdateAll d st = st.foldl (fun t p => t.Update d p.1 p.2) t := by
    intro t st
    exact Iterate_continue (fun t k v => t.Update d k v) st t
  refine ⟨hfold tr store, ?_, ?_, ?_⟩
  · intro k v
    rw [hfold, hfold, List.foldl_cons]
  · intro k v
    rw [hfold, hfold, List.foldl_append]
    rfl
  · intro k
    rw [hfold, hfold, List.foldl_append]
    rfl

/-- C22, the code at a failing input: for b1 = [1, 2, 3] and b2 = [1, 2, 4, 5] commonPrefix
returns the prefix [1, 2], the second result [4, 5] and the third result nil, so neither
p ++ r1 = b1 nor p ++ r2 = b2 holds; the third result is nil for all inputs. -/
theorem commonPrefix_remainders_at_input :
    commonPrefix [1, 2, 3] [1, 2, 4, 5] = ([1, 2], [4, 5], []) ∧
    (commonPrefix [1, 2, 3] [1, 2, 4, 5]).1 ++ (commonPrefix [1, 2, 3] [1, 2, 4, 5]).2.1 ≠
      [1, 2, 3] ∧
    (commonPrefix [1, 2, 3] [1, 2, 4, 5]).1 ++ (commonPrefix [1, 2, 3] [1, 2, 4, 5]).2.2 ≠
      [1, 2, 4, 5] ∧
    (∀ b1 b2 : List Byte, (commonPrefix b1 b2).2.2 = []) := by
  refine ⟨by decide, by decide, by decide, ?_⟩
  intro b1 b2
  simp [commonPrefix]

/-- C23: the common prefix returned by commonPrefix(key, fragment) consumes the entire key
and equals the full fragment, that is, its length is both len key and len fragment, exactly
when key and fragment are equal. -/
theorem commonPrefix_full_iff_eq (key fragment : List Byte) :
    (((commonPrefix key fragment).1.length = key.length ∧
        (commonPrefix key fragment).1.length = fragment.length) ↔ key = fragment) ∧
    (((commonPrefix key fragment).1 = key ∧ (commonPrefix key fragment).1 = fragment) ↔
      key = fragment) := by
  obtain ⟨t1, t2, h1, h2, h3⟩ := commonPrefix_fst key fragment
  generalize (commonPrefix key fragment).1 = p at h1 h2
  subst h1
  subst h2
  have hback : p ++ t1 = p ++ t2 → t1 = [] ∧ t2 = [] := by
    intro h
    have e : t1 = t2 := List.append_cancel_left h
    subst e
    rcases h3 with h3 | h3 | h3
    · exact ⟨h3, h3⟩
    · exact ⟨h3, h3⟩
    · exact absurd rfl h3
  constructor
  · constructor
    · rintro ⟨ha, hb⟩
      have e1 : t1 = [] := by
        apply List.eq_nil_of_length_eq_zero
        simp only [List.length_append] at ha
        omega
      have e2 : t2 = [] := by
        apply List.eq_nil_of_length_eq_zero
        simp only [List.length_append] at hb
        omega
      rw [e1, e2]
    · intro h
      obtain ⟨e1, e2⟩ := hback h
      simp [e1, e2]
  · constructor
    · rintro ⟨ha, hb⟩
      rw [← ha, ← hb]
    · intro h
      obtain ⟨e1, e2⟩ := hback h
      simp [e1, e2]

/-- C24 as stated fails at the proof with an empty key, an empty path and the ending
EndingRootNotFound: ProofGeneric.String does not panic on it. It returns the text in which
fmt has printed, in place of the name of the ending, the marker of the panic that it
recovered from the String method of the ending code. -/
theorem ProofGeneric_String_RootNotFound_returns :
    ({ Key := [], Path := [], Ending := EndingRootNotFound } : ProofGeneric Nat Nat).String =
      .ok [.text "GENERIC PROOF. Key: '", .bytes [], .text "', Ending: '",
        .recoveredPanic "wrong ending code", .text "'\n"] ∧
    ¬ ∃ msg, ({ Key := [], Path := [], Ending := EndingRootNotFound } :
        ProofGeneric Nat Nat).String = .error msg := by
  refine ⟨rfl, ?_⟩
  rintro ⟨msg, h⟩
  simp [ProofGeneric.String] at h

/-- C24, amended: ProofEndingCode.String returns a name exactly for the codes EndingTerminal,
EndingSplit and EndingExtend, which are the numeric codes 0, 1 and 2 and get three pairwise
distinct names, and it panics with "wrong ending code" for every other code, the declared
code EndingRootNotFound (3) among them. ProofGeneric.String does not panic on account of
the ending of the proof: for a proof whose Ending is EndingRootNotFound (and whose path
elements hold node data) it returns a text in which fmt has printed the marker of the
recovered panic in place of the name of the ending. -/
theorem ProofEndingCode_String_names {VC TC : Type} (e : ProofEndingCode)
    (p : ProofGeneric VC TC) :
    EndingTerminal.code = 0 ∧ EndingSplit.code = 1 ∧ EndingExtend.code = 2 ∧
    EndingRootNotFound.code = 3 ∧
    EndingTerminal.String = .ok "EndingTerminal" ∧
    EndingSplit.String = .ok "EndingSplit" ∧
    EndingExtend.String = .ok "EndingExtend" ∧
    EndingRootNotFound.String = .error "wrong ending code" ∧
    (("EndingTerminal" : Text) ≠ "EndingSplit" ∧ ("EndingTerminal" : Text) ≠ "EndingExtend" ∧
      ("EndingSplit" : Text) ≠ "EndingExtend") ∧
    ((∃ name, e.String = .ok name) ↔
      (e = EndingTerminal ∨ e = EndingSplit ∨ e = EndingExtend)) ∧
    ((e ≠ EndingTerminal ∧ e ≠ EndingSplit ∧ e ≠ EndingExtend) ↔
      e.String = .error "wrong ending code") ∧
    (∃ pieces, p.String = .ok pieces ∧
      fmtStringer p.Ending.String ∈ pieces ∧
      (p.Ending = EndingRootNotFound → Piece.recoveredPanic "wrong ending code" ∈ pieces)) := by
  have hmem : ∀ (l : List (ProofGenericElement VC TC)) (i : Nat) (ret : List Piece) (x : Piece),
      x ∈ ret → x ∈ pathText i l ret := by
    intro l
    induction l with
    | nil =>
      intro i ret x hx
      simpa [pathText] using hx
    | cons el rest ih =>
      intro i ret x hx
      simp only [pathText]
      exact ih _ _ x (List.mem_append_left _ hx)
  have hcase : e = EndingTerminal ∨ e = EndingSplit ∨ e = EndingExtend ∨
      (e ≠ EndingTerminal ∧ e ≠ EndingSplit ∧ e ≠ EndingExtend) := by
    by_cases h1 : e = EndingTerminal
    · exact Or.inl h1
    · by_cases h2 : e = EndingSplit
      · exact Or.inr (Or.inl h2)
      · by_cases h3 : e = EndingExtend
        · exact Or.inr (Or.inr (Or.inl h3))
        · exact Or.inr (Or.inr (Or.inr ⟨h1, h2, h3⟩))
  refine ⟨rfl, rfl, rfl, rfl, rfl, rfl, rfl, rfl, by decide, ?_, ?_, ?_⟩
  · rcases hcase with h | h | h | ⟨h1, h2, h3⟩
    · subst h
      exact ⟨fun _ => Or.inl rfl, fun _ => ⟨_, rfl⟩⟩
    · subst h
      exact ⟨fun _ => Or.inr (Or.inl rfl), fun _ => ⟨_, rfl⟩⟩
    · subst h
      exact ⟨fun _ => Or.inr (Or.inr rfl), fun _ => ⟨_, rfl⟩⟩
    · simp [ProofEndingCode.String, h1, h2, h3]
  · rcases hcase with h | h | h | ⟨h1, h2, h3⟩
    · subst h
      simp [ProofEndingCode.String]
    · subst h
      simp [ProofEndingCode.String, EndingSplit, EndingTerminal]
    · subst h
      simp [ProofEndingCode.String, EndingSplit, EndingTerminal, EndingExtend]
    · simp [ProofEndingCode.String, h1, h2, h3]
  · refine ⟨_, rfl, ?_, ?_⟩
    · apply hmem
      simp
    · intro h
      apply hmem
      rw [h]
      simp [fmtStringer, ProofEndingCode.String, EndingRootNotFound, EndingTerminal, EndingSplit,
        EndingExtend]

/-! ## The nodes that a run of commitNode commits -/

mutual
theorem commitNode_calls_reachable {VC TC : Type} (w : KVWriter) (m : CommitmentModel VC TC) :
    ∀ node : bufferedNode VC TC,
      (commitNode w m node).calls = (reachableNodes node).map (ownCall w m)
  | .mk nodeData terminal pathFragment uncommittedChildren => by
    rw [commitNode_calls]
    simp only [reachableNodes, List.map_append, List.map_cons, List.map_nil,
      bufferedNode.uncommittedChildren]
    rw [childrenCalls_reachable w m uncommittedChildren]
    rfl
theorem childrenCalls_reachable {VC TC : Type} (w : KVWriter) (m : CommitmentModel VC TC) :
    ∀ l : List (Byte × Option (bufferedNode VC TC)),
      childrenCalls w m l = (reachableThrough l).map (ownCall w m)
  | [] => by simp [childrenCalls, reachableThrough]
  | (idx, none) :: rest => by
    simp only [childrenCalls, reachableThrough]
    exact childrenCalls_reachable w m rest
  | (idx, some child) :: rest => by
    simp only [childrenCalls, reachableThrough, List.map_append]
    rw [commitNode_calls_reachable w m child, childrenCalls_reachable w m rest]
end

theorem mem_reachableThrough {VC TC : Type} (idx : Byte) (child n : bufferedNode VC TC)
    (hn : n ∈ reachableNodes child) :
    ∀ l : List (Byte × Option (bufferedNode VC TC)),
      (idx, some child) ∈ l → n ∈ reachableThrough l
  | [], h => by simp at h
  | (i, none) :: rest, h => by
    simp only [reachableThrough]
    rcases List.mem_cons.mp h with h1 | h1
    · simp at h1
    · exact mem_reachableThrough idx child n hn rest h1
  | (i, some c) :: rest, h => by
    simp only [reachableThrough, List.mem_append]
    rcases List.mem_cons.mp h with h1 | h1
    · have e : child = c := by
        have := congrArg Prod.snd h1
        simpa using this
      subst e
      exact Or.inl hn
    · exact Or.inr (mem_reachableThrough idx child n hn rest h1)

/-- C25: commitNode invokes UpdateNodeCommitment exactly once for the node it is called on
and once for every node reachable from it through pending children that are not
delete-marked, and for no other node: its invocations are, one for one and in order, the
own invocations of the reachable nodes, the node itself being reachable and coming last.
In particular Commit on a Trie whose mutation root has no pending edit makes one invocation,
on the root, with an empty child-update map. -/
theorem commitNode_invokes_once_per_node {VC TC : Type} (w : KVWriter)
    (m : CommitmentModel VC TC) (node : bufferedNode VC TC) (tr : Trie VC TC) :
    (commitNode w m node).calls = (reachableNodes node).map (ownCall w m) ∧
    (commitNode w m node).calls.length = (reachableNodes node).length ∧
    (reachableNodes node).getLast? = some node ∧
    (∀ idx child n, (idx, some child) ∈ node.uncommittedChildren →
      n ∈ reachableNodes child → n ∈ reachableNodes node) ∧
    (node.uncommittedChildren = [] → reachableNodes node = [node]) ∧
    (tr.mutatedRoot.uncommittedChildren = [] →
      (tr.Commit w).calls =
        [⟨tr.mutatedRoot.nodeData, [], tr.mutatedRoot.terminal, tr.mutatedRoot.pathFragment,
          !IsNil tr.mutatedRoot.nodeData.Commitment⟩]) := by
  have hcalls := commitNode_calls_reachable w m node
  refine ⟨hcalls, by rw [hcalls, List.length_map], ?_, ?_, ?_, ?_⟩
  · obtain ⟨nd, t, f, ch⟩ := node
    simp [reachableNodes]
  · obtain ⟨nd, t, f, ch⟩ := node
    intro idx child n hmem hn
    simp only [bufferedNode.uncommittedChildren] at hmem
    simp only [reachableNodes, List.mem_append]
    exact Or.inl (mem_reachableThrough idx child n hn ch hmem)
  · obtain ⟨nd, t, f, ch⟩ := node
    intro h
    simp only [bufferedNode.uncommittedChildren] at h
    subst h
    simp [reachableNodes, reachableThrough]
  · intro h
    simp only [Trie.Commit, TrieReader.Model]
    rw [commitNode_calls, h]
    simp [childrenCalls, commitLoop]

/-! ## Depth of the recursion of commitNode -/

theorem height_le_pendingHeight {VC TC : Type} (idx : Byte) (child : bufferedNode VC TC) :
    ∀ l : List (Byte × Option (bufferedNode VC TC)),
      (idx, some child) ∈ l → child.height ≤ pendingHeight l
  | [], h => by simp at h
  | (i, none) :: rest, h => by
    simp only [pendingHeight]
    rcases List.mem_cons.mp h with h1 | h1
    · simp at h1
    · exact height_le_pendingHeight idx child rest h1
  | (i, some c) :: rest, h => by
    simp only [pendingHeight]
    rcases List.mem_cons.mp h with h1 | h1
    · have e : child = c := by
        have := congrArg Prod.snd h1
        simpa using this
      subst e
      exact le_max_left _ _
    · exact le_trans (height_le_pendingHeight idx child rest h1) (le_max_right _ _)

theorem commitLoopWith_eq {VC TC : Type} (m : CommitmentModel VC TC)
    (commit : KVWriter → bufferedNode VC TC → Option (CommitOut VC TC)) :
    ∀ (l : List (Byte × Option (bufferedNode VC TC))),
      (∀ idx child, (idx, some child) ∈ l → ∀ w, commit w child = some (commitNode w m child)) →
      ∀ s : LoopState VC TC, commitLoopWith commit s l = some (commitLoop m s l)
  | [], _, s => by simp [commitLoopWith, commitLoop]
  | (idx, none) :: rest, h, s => by
    simp only [commitLoopWith, commitLoop]
    exact commitLoopWith_eq m commit rest
      (fun i c hc => h i c (List.mem_cons_of_mem _ hc)) _
  | (idx, some child) :: rest, h, s => by
    simp only [commitLoopWith, commitLoop, h idx child (List.mem_cons_self _ _) s.w]
    exact commitLoopWith_eq m commit rest
      (fun i c hc => h i c (List.mem_cons_of_mem _ hc)) _

theorem commitNodeDepth_eq {VC TC : Type} (m : CommitmentModel VC TC) :
    ∀ (depth : Nat) (w : KVWriter) (node : bufferedNode VC TC), node.height ≤ depth →
      commitNodeDepth depth w m node = some (commitNode w m node)
  | 0, w, .mk nd t f ch, h => by
    simp [bufferedNode.height] at h
  | depth + 1, w, .mk nd t f ch, h => by
    have hch : pendingHeight ch ≤ depth := by
      simp only [bufferedNode.height] at h
      omega
    have hloop := commitLoopWith_eq m (fun w1 child => commitNodeDepth depth w1 m child) ch
      (fun idx child hc w1 =>
        commitNodeDepth_eq m depth w1 child
          (le_trans (height_le_pendingHeight idx child ch hc) hch))
      ⟨w, [], []⟩
    simp only [commitNodeDepth, hloop, commitNode]

/-- C26: commitNode terminates on every finite buffered tree. Its recursion descends only
into pending children of the current node, each of which is a strictly lower tree, so a run
never goes deeper than the height of the tree: under any bound on the recursion depth that
is at least the height, the run returns, and it returns the outcome of commitNode, which is
a total function on buffered trees. -/
theorem commitNode_terminates {VC TC : Type} (w : KVWriter) (m : CommitmentModel VC TC)
    (node : bufferedNode VC TC) (depth : Nat) (h : node.height ≤ depth) :
    commitNodeDepth depth w m node = some (commitNode w m node) ∧
    (∀ idx child, (idx, some child) ∈ node.uncommittedChildren →
      child.height < node.height) := by
  refine ⟨commitNodeDepth_eq m depth w node h, ?_⟩
  obtain ⟨nd, t, f, ch⟩ := node
  intro idx child hc
  simp only [bufferedNode.uncommittedChildren] at hc
  simp only [bufferedNode.height]
  exact Nat.lt_succ_of_le (height_le_pendingHeight idx child ch hc)

/-- C26 at twoEditsNode, of height 2, under the depth bound 2. -/
theorem commitNode_terminates_witness :
    twoEditsNode.height ≤ 2 ∧
    commitNodeDepth 2 [] sumModel twoEditsNode = some (commitNode [] sumModel twoEditsNode) ∧
    (∀ idx child, (idx, some child) ∈ twoEditsNode.uncommittedChildren →
      child.height < twoEditsNode.height) :=
  ⟨by decide, commitNode_terminates [] sumModel twoEditsNode 2 (by decide)⟩

end Immutable
